import Mathlib

/-!
Shallow embedding of the cw-lockbox contract (src/contract.rs).

Timestamps are modelled as `Nat` nanosecond counts, mirroring
`cosmwasm_std::Timestamp`; amounts are `Nat` with the `Uint128` range made
explicit where arithmetic is checked.  The lock ledger
(`cw_storage_plus::Map<(&Addr, String), Lock>`) is modelled as an
association list kept sorted by key, which is how the storage map presents
its range scans.
-/

deriving instance DecidableEq for Except

namespace Lockbox

/-- Nanoseconds per second, the scale factor of `cosmwasm_std::Timestamp`. -/
def nanosPerSec : Nat := 1000000000

/-- The largest value representable by `cosmwasm_std::Uint128`. -/
def uint128Max : Nat := 2 ^ 128 - 1

/-- Model of `Timestamp::seconds`: whole-second component of a nanosecond timestamp. -/
def tsSeconds (t : Nat) : Nat := t / nanosPerSec

/-- Model of `Timestamp::minus_seconds`: subtract a number of whole seconds.
(The Rust version panics on underflow; every call site in the contract is
guarded so that the subtraction cannot underflow, hence truncated `Nat`
subtraction agrees with it there.) -/
def tsMinusSeconds (t : Nat) (s : Nat) : Nat := t - s * nanosPerSec

/-- Model of `cosmwasm_std::Coin`: a native-denomination amount. -/
structure Coin where
  denom : String
  amount : Nat
deriving DecidableEq, Repr

/-- Model of `cw20::Cw20CoinVerified`: a token amount tagged with its contract address. -/
structure Cw20CoinVerified where
  address : String
  amount : Nat
deriving DecidableEq, Repr

/-- Model of `cw20::Cw20Coin`: the read-side projection of a token amount. -/
structure Cw20Coin where
  address : String
  amount : Nat
deriving DecidableEq, Repr

/-- Model of `cw20::Balance`: a deposit, either native coins or a single cw20 amount. -/
inductive Balance where
  | native (coins : List Coin)
  | cw20 (token : Cw20CoinVerified)
deriving DecidableEq, Repr

/-- Model of `cw20::Balance::is_empty`: a native deposit is empty when every coin
amount is zero; a cw20 deposit is empty when its amount is zero. -/
def Balance.is_empty : Balance → Bool
  | .native cs => cs.all (fun c => c.amount == 0)
  | .cw20 t => t.amount == 0

/-- Model of `GenericBalance` (declared in src/state.rs): the funds held by a lock,
a list of native coins plus a list of cw20 token amounts. -/
structure GenericBalance where
  native : List Coin
  cw20 : List Cw20CoinVerified
deriving DecidableEq, Repr

/-- Modelled from the spec: the `From<Balance> for GenericBalance` conversion
declared in src/state.rs (absent from src/); a deposit is resolved to a
canonical Balance Aggregate before entering the lifecycle engine. -/
def Balance.intoGeneric : Balance → GenericBalance
  | .native cs => { native := cs, cw20 := [] }
  | .cw20 t => { native := [], cw20 := [t] }

/-- The contract error type (declared in src/error.rs, whose variants appear
at the call sites in src/contract.rs); `NotFound` stands for the std storage
load failure surfaced through `ContractError::Std`, and `Overflow` is the
balance-arithmetic failure named by the error taxonomy of the spec. -/
inductive ContractError where
  | EmptyBalance
  | LowExpired
  | HighExpired
  | AlreadyInUse
  | LockComplete
  | LockNotExpired
  | NotFound
  | Overflow
deriving DecidableEq, Repr

/-- The `Lock` record stored per (owner, id) key (fields as used in
src/contract.rs). -/
structure Lock where
  create : Nat
  expire : Nat
  funds : GenericBalance
  complete : Bool
  owner : String
deriving DecidableEq, Repr

/-- A ledger key: (owner address, lock id). -/
abbrev Key := String × String

/-- Strict ordering of ledger keys: by owner, then by id.  Within one
range scan of one owner this is exactly ascending lexicographic id order. -/
def keyLt (a b : Key) : Prop := a.1 < b.1 ∨ (a.1 = b.1 ∧ a.2 < b.2)

instance (a b : Key) : Decidable (keyLt a b) :=
  inferInstanceAs (Decidable (_ ∨ _))

/-- The lock ledger: the key-ordered association list presented by
`cw_storage_plus::Map<(&Addr, String), Lock>`. -/
abbrev Ledger := List (Key × Lock)

/-- Model of `Map::load` / `Map::may_load`: first entry with the given key. -/
def Ledger.get : Ledger → Key → Option Lock
  | [], _ => none
  | (k, v) :: rest, key => if k = key then some v else Ledger.get rest key

/-- Insertion of a fresh key, keeping the ledger sorted (the storage map is
ordered by serialized key). -/
def insertLock : Ledger → Key → Lock → Ledger
  | [], key, v => [(key, v)]
  | (k, w) :: rest, key, v =>
    if keyLt key k then (key, v) :: (k, w) :: rest
    else (k, w) :: insertLock rest key v

/-- Model of `Map::save`: overwrite the entry at the key (replace the first matching
entry; append if absent — the contract only saves keys it just loaded). -/
def saveLock : Ledger → Key → Lock → Ledger
  | [], key, v => [(key, v)]
  | (k, w) :: rest, key, v =>
    if k = key then (key, v) :: rest else (k, w) :: saveLock rest key v

/-- The `State` record saved at instantiation (src/state.rs, fields as used
in src/contract.rs). -/
structure State where
  max_lock_time : Nat
  owner : String
deriving DecidableEq, Repr

/-- The full persisted storage: the config record plus the lock ledger. -/
structure Storage where
  state : State
  locks : Ledger
deriving DecidableEq, Repr

/-- The outbound messages the contract produces: `BankMsg::Send` and the
wrapped `Cw20ExecuteMsg::Transfer` execute call. -/
inductive CosmosMsg where
  | bankSend (to_address : String) (amount : List Coin)
  | cw20Transfer (contract_addr : String) (recipient : String) (amount : Nat)
deriving DecidableEq, Repr

/-- Model of `cosmwasm_std::Response`: outbound messages plus event attributes. -/
structure Response where
  messages : List CosmosMsg
  attributes : List (String × String)
deriving DecidableEq, Repr

/-- Model of `instantiate`: record the configured maximum lock duration and the
instantiating sender. -/
def instantiate (max_lock_time : Nat) (sender : String) : Storage :=
  { state := { max_lock_time := max_lock_time, owner := sender }, locks := [] }

/-- Modelled from the spec: `GenericBalance::add_tokens` native-coin step
(declared in src/state.rs, absent from src/) — add one coin into the native
list, merging into the entry with the same denom or appending a new entry;
the addition is checked and fails with `Overflow` when the sum leaves the
`Uint128` range. -/
def addNativeCoin : List Coin → Coin → Except ContractError (List Coin)
  | [], c => .ok [c]
  | e :: rest, c =>
    if e.denom = c.denom then
      if e.amount + c.amount ≤ uint128Max then
        .ok ({ denom := e.denom, amount := e.amount + c.amount } :: rest)
      else .error .Overflow
    else
      match addNativeCoin rest c with
      | .error err => .error err
      | .ok r => .ok (e :: r)

/-- Modelled from the spec: fold `addNativeCoin` over a native deposit. -/
def addNativeCoins : List Coin → List Coin → Except ContractError (List Coin)
  | native, [] => .ok native
  | native, c :: cs =>
    match addNativeCoin native c with
    | .error err => .error err
    | .ok n2 => addNativeCoins n2 cs

/-- Modelled from the spec: `GenericBalance::add_tokens` cw20 step (declared
in src/state.rs, absent from src/) — merge one token amount into the entry
with the same address or append a new entry, with checked addition. -/
def addCw20Token : List Cw20CoinVerified → Cw20CoinVerified →
    Except ContractError (List Cw20CoinVerified)
  | [], t => .ok [t]
  | e :: rest, t =>
    if e.address = t.address then
      if e.amount + t.amount ≤ uint128Max then
        .ok ({ address := e.address, amount := e.amount + t.amount } :: rest)
      else .error .Overflow
    else
      match addCw20Token rest t with
      | .error err => .error err
      | .ok r => .ok (e :: r)

/-- Modelled from the spec: `GenericBalance::add_tokens` (declared in
src/state.rs, absent from src/) — merge a deposit into the held funds, with
every addition checked for overflow. -/
def GenericBalance.add_tokens (g : GenericBalance) (b : Balance) :
    Except ContractError GenericBalance :=
  match b with
  | .native cs =>
    match addNativeCoins g.native cs with
    | .error err => .error err
    | .ok n2 => .ok { g with native := n2 }
  | .cw20 t =>
    match addCw20Token g.cw20 t with
    | .error err => .error err
    | .ok c2 => .ok { g with cw20 := c2 }

/-- Model of `send_tokens`: one `BankMsg::Send` carrying the whole native list
(omitted when that list is empty) followed by one cw20 transfer per stored
token entry, in the stored order. -/
def send_tokens (toAddr : String) (balance : GenericBalance) : List CosmosMsg :=
  (if balance.native.isEmpty then [] else [CosmosMsg.bankSend toAddr balance.native])
    ++ balance.cw20.map (fun c => CosmosMsg.cw20Transfer c.address toAddr c.amount)

/-- Model of `try_lock`: create a new lock.  Checks, in order: non-empty deposit,
expiry strictly in the future (full-timestamp comparison), duration bound
(`expire.minus_seconds(now.seconds()).seconds() >= max_lock_time` rejects),
then inserts, failing `AlreadyInUse` when the key already exists. -/
def try_lock (s : Storage) (now : Nat) (balance : Balance) (sender : String)
    (id : String) (expire : Nat) : Except ContractError (Storage × Response) :=
  if balance.is_empty then .error .EmptyBalance
  else if expire ≤ now then .error .LowExpired
  else if s.state.max_lock_time ≤ tsSeconds (tsMinusSeconds expire (tsSeconds now)) then
    .error .HighExpired
  else
    match Ledger.get s.locks (sender, id) with
    | some _ => .error .AlreadyInUse
    | none =>
      let lock : Lock :=
        { create := now, expire := expire, funds := balance.intoGeneric,
          complete := false, owner := sender }
      .ok ({ s with locks := insertLock s.locks (sender, id) lock },
           { messages := [],
             attributes := [("action", "lock"), ("from", sender), ("id", id)] })

/-- Model of `try_increase_lock`: merge a further deposit into an existing lock.
Checks only that the deposit is non-empty and that the lock exists — the
`complete` flag is never consulted. -/
def try_increase_lock (s : Storage) (balance : Balance) (sender : String)
    (id : String) : Except ContractError (Storage × Response) :=
  if balance.is_empty then .error .EmptyBalance
  else
    match Ledger.get s.locks (sender, id) with
    | none => .error .NotFound
    | some lock =>
      match GenericBalance.add_tokens lock.funds balance with
      | .error err => .error err
      | .ok funds2 =>
        .ok ({ s with locks := saveLock s.locks (sender, id) { lock with funds := funds2 } },
             { messages := [],
               attributes := [("action", "increase_lock"), ("from", sender), ("id", id)] })

/-- Model of `try_unlock`: release a lock.  Fails `NotFound` when absent,
`LockComplete` when already released, `LockNotExpired` when
`now <= expire`; otherwise marks the lock complete, saves it (funds kept),
and emits the transfer messages for its funds. -/
def try_unlock (s : Storage) (now : Nat) (sender : String) (id : String) :
    Except ContractError (Storage × Response) :=
  match Ledger.get s.locks (sender, id) with
  | none => .error .NotFound
  | some lock =>
    if lock.complete then .error .LockComplete
    else if now ≤ lock.expire then .error .LockNotExpired
    else
      let lock2 : Lock := { lock with complete := true }
      .ok ({ s with locks := saveLock s.locks (sender, id) lock2 },
           { messages := send_tokens sender lock2.funds,
             attributes := [("action", "unlock"), ("from", sender)] })

/-- Model of `LockInfo` (src/msg.rs, fields as populated by `to_lock_info`). -/
structure LockInfo where
  id : String
  owner : String
  create : Nat
  expire : Nat
  complete : Bool
  native_balance : List Coin
  cw20_balance : List Cw20Coin
deriving DecidableEq, Repr

/-- Model of `to_lock_info`: the read-side projection of a stored lock. -/
def to_lock_info (lock : Lock) (id : String) : LockInfo :=
  { id := id, owner := lock.owner, create := lock.create, expire := lock.expire,
    complete := lock.complete, native_balance := lock.funds.native,
    cw20_balance := lock.funds.cw20.map (fun t => { address := t.address, amount := t.amount }) }

/-- Model of `query_lock`: look one lock up (std `NotFound` load failure when
absent). -/
def query_lock (s : Storage) (address : String) (id : String) :
    Except ContractError LockInfo :=
  match Ledger.get s.locks (address, id) with
  | none => .error .NotFound
  | some lock => .ok (to_lock_info lock id)

/-- Model of `query_locks`: ascending range scan of the prefix of the owner, each entry
mapped to its `LockInfo`. -/
def query_locks (s : Storage) (address : String) : List LockInfo :=
  (s.locks.filter (fun kv => kv.1.1 == address)).map (fun kv => to_lock_info kv.2 kv.1.2)

/-- One external call into the contract, with the block time and sender
taken from the env/info of that call. -/
inductive Call where
  | lockCall (now : Nat) (sender : String) (funds : Balance) (id : String) (expire : Nat)
  | increaseCall (sender : String) (funds : Balance) (id : String)
  | unlockCall (now : Nat) (sender : String) (id : String)
deriving DecidableEq, Repr

/-- The `execute` dispatch of src/contract.rs. -/
def execute (s : Storage) : Call → Except ContractError (Storage × Response)
  | .lockCall now sender funds id expire => try_lock s now funds sender id expire
  | .increaseCall sender funds id => try_increase_lock s funds sender id
  | .unlockCall now sender id => try_unlock s now sender id

/-- The storage after one call under the transactional boundary of the host: a
failed call commits nothing. -/
def applyCall (s : Storage) (c : Call) : Storage :=
  match execute s c with
  | .ok (s2, _) => s2
  | .error _ => s

/-- The storage after a sequence of calls. -/
def execTrace : Storage → List Call → Storage
  | s, [] => s
  | s, c :: cs => execTrace (applyCall s c) cs

/-- Whether a call is a CreateLock by the given owner that succeeds in the
given storage. -/
def isSuccessfulCreate (s : Storage) (c : Call) (owner : String) : Bool :=
  match c with
  | .lockCall now sender funds id expire =>
    sender == owner &&
      (match try_lock s now funds sender id expire with
       | .ok _ => true
       | .error _ => false)
  | _ => false

/-- Number of successful CreateLock calls for the given owner along a
trace. -/
def countCreates : Storage → List Call → String → Nat
  | _, [], _ => 0
  | s, c :: cs, owner =>
    (if isSuccessfulCreate s c owner then 1 else 0) + countCreates (applyCall s c) cs owner

/-- Amount held for a native denomination (first matching entry, 0 when
absent). -/
def denomAmount : List Coin → String → Nat
  | [], _ => 0
  | c :: rest, d => if c.denom = d then c.amount else denomAmount rest d

/-- Amount held for a cw20 token address (first matching entry, 0 when
absent). -/
def tokenAmount : List Cw20CoinVerified → String → Nat
  | [], _ => 0
  | t :: rest, a => if t.address = a then t.amount else tokenAmount rest a

/-- The ledger as the storage map presents it: strictly ascending by key. -/
def LedgerSorted (l : Ledger) : Prop :=
  l.Pairwise (fun a b => keyLt a.1 b.1)

/-- The `Lock` value `try_lock` builds on success. -/
def newLock (now expire : Nat) (bal : Balance) (sender : String) : Lock :=
  { create := now, expire := expire, funds := bal.intoGeneric,
    complete := false, owner := sender }

/-- Concrete addresses and values used to exercise the theorems (mirroring
the tests of the repository). -/
def addrCreator : String := "creator"

/-- A depositor address used in concrete instances. -/
def addrAnyone : String := "anyone"

/-- A native denomination used in concrete instances. -/
def denomToken : String := "token"

/-- A lock id used in concrete instances. -/
def lockId1 : String := "1"

/-- A second lock id used in concrete instances. -/
def lockId2 : String := "2"

/-- A deposit of two units of the native token. -/
def depositTwo : Balance := .native [{ denom := denomToken, amount := 2 }]

/-- Storage after instantiation with a 3600-second maximum lock duration. -/
def stInit : Storage := instantiate 3600 addrCreator

/-- Storage holding one open lock (owner `addrAnyone`, id `lockId1`,
expiry 200 s). -/
def stWith1 : Storage :=
  applyCall stInit (.lockCall 0 addrAnyone depositTwo lockId1 (200 * nanosPerSec))

/-- The lock stored in `stWith1`. -/
def lock1 : Lock :=
  { create := 0, expire := 200 * nanosPerSec,
    funds := { native := [{ denom := denomToken, amount := 2 }], cw20 := [] },
    complete := false, owner := addrAnyone }

/-- Storage after that lock has been released at 201 s. -/
def stDone : Storage :=
  applyCall stWith1 (.unlockCall (201 * nanosPerSec) addrAnyone lockId1)

/-- The lock stored in `stDone` (released, funds kept). -/
def lockDone : Lock := { lock1 with complete := true }

/-- Funds after topping the released lock up with two more units. -/
def fundsFour : GenericBalance :=
  { native := [{ denom := denomToken, amount := 4 }], cw20 := [] }

/-- The released lock after that top-up. -/
def lockDone4 : Lock := { lockDone with funds := fundsFour }

/-- The response produced by the successful release in `stDone`. -/
def rUnlock : Response :=
  { messages := [CosmosMsg.bankSend addrAnyone [{ denom := denomToken, amount := 2 }]],
    attributes := [("action", "unlock"), ("from", addrAnyone)] }

/-- A cw20 token contract address used in concrete instances. -/
def addrCw20 : String := "cw20token"

/-- A balance already holding the maximal representable native amount. -/
def gMax : GenericBalance :=
  { native := [{ denom := denomToken, amount := uint128Max }],
    cw20 := [{ address := addrCw20, amount := 3 }] }

/-- A call trace with two distinct successful creates (ids out of order),
one duplicate create, and one release. -/
def traceEx : List Call :=
  [ .lockCall 0 addrAnyone depositTwo lockId2 (300 * nanosPerSec),
    .lockCall 0 addrAnyone depositTwo lockId1 (200 * nanosPerSec),
    .lockCall 0 addrAnyone depositTwo lockId1 (200 * nanosPerSec),
    .unlockCall (201 * nanosPerSec) addrAnyone lockId1 ]

end Lockbox

namespace Lockbox

/-! ### Ledger lemmas -/

theorem get_insertLock_of_absent (l : Ledger) (k : Key) (v : Lock)
    (h : Ledger.get l k = none) : Ledger.get (insertLock l k v) k = some v := by
  induction l with
  | nil => simp [insertLock, Ledger.get]
  | cons e rest ih =>
    obtain ⟨k1, w⟩ := e
    simp only [Ledger.get] at h
    by_cases hk : k1 = k
    · rw [if_pos hk] at h; cases h
    · rw [if_neg hk] at h
      simp only [insertLock]
      by_cases hlt : keyLt k k1
      · rw [if_pos hlt]; simp [Ledger.get]
      · rw [if_neg hlt]; simp only [Ledger.get, if_neg hk]; exact ih h

theorem get_saveLock_self (l : Ledger) (k : Key) (v : Lock) :
    Ledger.get (saveLock l k v) k = some v := by
  induction l with
  | nil => simp [saveLock, Ledger.get]
  | cons e rest ih =>
    obtain ⟨k1, w⟩ := e
    simp only [saveLock]
    by_cases hk : k1 = k
    · rw [if_pos hk]; simp [Ledger.get]
    · rw [if_neg hk]; simp only [Ledger.get, if_neg hk]; exact ih

/-! ### Shapes of the execute paths -/

theorem try_lock_of_valid (s : Storage) (now : Nat) (bal : Balance) (sender id : String)
    (expire : Nat) (hbal : bal.is_empty = false) (hfut : now < expire)
    (hdur : tsSeconds (tsMinusSeconds expire (tsSeconds now)) < s.state.max_lock_time) :
    try_lock s now bal sender id expire =
      match Ledger.get s.locks (sender, id) with
      | some _ => .error .AlreadyInUse
      | none =>
        .ok ({ s with locks := insertLock s.locks (sender, id) (newLock now expire bal sender) },
             { messages := [],
               attributes := [("action", "lock"), ("from", sender), ("id", id)] }) := by
  unfold try_lock
  rw [hbal]
  simp only [Bool.false_eq_true, if_false,
    if_neg (not_le.mpr hfut), if_neg (not_le.mpr hdur)]
  rfl

theorem try_lock_ok_inv (s : Storage) (now : Nat) (bal : Balance) (sender id : String)
    (expire : Nat) (s2 : Storage) (r : Response)
    (h : try_lock s now bal sender id expire = .ok (s2, r)) :
    Ledger.get s.locks (sender, id) = none ∧
      s2 = { s with locks := insertLock s.locks (sender, id) (newLock now expire bal sender) } := by
  unfold try_lock at h
  split at h
  · cases h
  · split at h
    · cases h
    · split at h
      · cases h
      · split at h
        · cases h
        · refine ⟨?_, ?_⟩
          · assumption
          · cases h; rfl

theorem try_increase_ok_inv (s : Storage) (bal : Balance) (sender id : String)
    (s2 : Storage) (r : Response)
    (h : try_increase_lock s bal sender id = .ok (s2, r)) :
    ∃ lock funds2, Ledger.get s.locks (sender, id) = some lock ∧
      GenericBalance.add_tokens lock.funds bal = .ok funds2 ∧
      s2 = { s with locks := saveLock s.locks (sender, id) { lock with funds := funds2 } } := by
  unfold try_increase_lock at h
  split at h
  · cases h
  · split at h
    · cases h
    · split at h
      · cases h
      · rename_i lock hg x funds2 ha
        refine ⟨lock, funds2, hg, ha, ?_⟩
        cases h; rfl

theorem try_unlock_ok_inv (s : Storage) (now : Nat) (sender id : String)
    (s2 : Storage) (r : Response)
    (h : try_unlock s now sender id = .ok (s2, r)) :
    ∃ lock, Ledger.get s.locks (sender, id) = some lock ∧
      lock.complete = false ∧ lock.expire < now ∧
      s2 = { s with locks := saveLock s.locks (sender, id) { lock with complete := true } } ∧
      r = { messages := send_tokens sender lock.funds,
            attributes := [("action", "unlock"), ("from", sender)] } := by
  unfold try_unlock at h
  split at h
  · cases h
  · rename_i lock hg
    split at h
    · cases h
    · split at h
      · cases h
      · rename_i hc hle
        refine ⟨lock, hg, by simpa using hc, not_le.mp hle, ?_, ?_⟩ <;>
        · cases h; rfl

/-! ### Claim theorems -/

/-- C1: once a (owner, id) key is present in the ledger — whatever the
stored lock looks like, open or completed — a CreateLock with a valid
non-empty deposit and valid expiry fails `AlreadyInUse`; conversely a
successful CreateLock leaves the key present, so the id is consumed. -/
theorem create_lock_key_consumed (s : Storage) (now : Nat) (bal : Balance)
    (sender id : String) (expire : Nat) (hbal : bal.is_empty = false)
    (hfut : now < expire)
    (hdur : tsSeconds (tsMinusSeconds expire (tsSeconds now)) < s.state.max_lock_time) :
    (∀ l, Ledger.get s.locks (sender, id) = some l →
        try_lock s now bal sender id expire = .error .AlreadyInUse)
    ∧ (∀ s2 r, try_lock s now bal sender id expire = .ok (s2, r) →
        ∃ l, Ledger.get s2.locks (sender, id) = some l) := by
  constructor
  · intro l hget
    rw [try_lock_of_valid s now bal sender id expire hbal hfut hdur]
    simp [hget]
  · intro s2 r hok
    obtain ⟨hnone, hs2⟩ := try_lock_ok_inv s now bal sender id expire s2 r hok
    subst hs2
    exact ⟨_, get_insertLock_of_absent _ _ _ hnone⟩

theorem create_lock_key_consumed_witness :
    try_lock stWith1 0 depositTwo addrAnyone lockId1 (200 * nanosPerSec)
      = .error .AlreadyInUse := by
  exact (create_lock_key_consumed stWith1 0 depositTwo addrAnyone lockId1
    (200 * nanosPerSec) (by decide) (by decide) (by decide)).1 lock1 (by decide)

/-- C2: for a stored, not-yet-completed lock, ReleaseLock fails
`LockNotExpired` whenever `now <= expire` (the boundary instant included),
and succeeds whenever `now > expire`. -/
theorem release_strict_expiry_boundary (s : Storage) (sender id : String) (l : Lock)
    (now : Nat) (hget : Ledger.get s.locks (sender, id) = some l)
    (hopen : l.complete = false) :
    (now ≤ l.expire → try_unlock s now sender id = .error .LockNotExpired)
    ∧ (l.expire < now → ∃ s2 r, try_unlock s now sender id = .ok (s2, r)) := by
  constructor
  · intro hle
    simp only [try_unlock, hget, hopen, Bool.false_eq_true, if_false, if_pos hle]
  · intro hlt
    refine ⟨{ s with locks := saveLock s.locks (sender, id) { l with complete := true } },
      { messages := send_tokens sender l.funds,
        attributes := [("action", "unlock"), ("from", sender)] }, ?_⟩
    simp only [try_unlock, hget, hopen, Bool.false_eq_true, if_false,
      if_neg (not_le.mpr hlt)]

theorem release_strict_expiry_boundary_witness :
    try_unlock stWith1 (200 * nanosPerSec) addrAnyone lockId1
      = .error .LockNotExpired := by
  exact (release_strict_expiry_boundary stWith1 addrAnyone lockId1 lock1
    (200 * nanosPerSec) (by decide) (by decide)).1 (by decide)

/-- C5: a completed lock can never be released again: ReleaseLock on it
always fails `LockComplete` (an error result, hence carrying no transfer
messages). -/
theorem release_completed_always_fails (s : Storage) (sender id : String) (l : Lock)
    (now : Nat) (hget : Ledger.get s.locks (sender, id) = some l)
    (hc : l.complete = true) :
    try_unlock s now sender id = .error .LockComplete := by
  simp only [try_unlock, hget, hc, if_true]

theorem release_completed_always_fails_witness :
    try_unlock stDone (300 * nanosPerSec) addrAnyone lockId1
      = .error .LockComplete := by
  exact release_completed_always_fails stDone addrAnyone lockId1
    { lock1 with complete := true } (300 * nanosPerSec) (by decide) (by decide)

/-- C3 counterexample: with a maximum lock duration of 1 second, a call at
`now = 1` nanosecond with `expire` one second has exact duration
`10^9 - 1 ns`, strictly below the maximum, and `now < expire`; the claim
says neither time-window error occurs, yet the code rejects it with
`HighExpired` because the duration check truncates `now` to whole
seconds. -/
theorem create_lock_time_window_counterexample :
    (1 : Nat) < nanosPerSec
    ∧ nanosPerSec - 1 < (instantiate 1 addrCreator).state.max_lock_time * nanosPerSec
    ∧ try_lock (instantiate 1 addrCreator) 1 depositTwo addrAnyone lockId1 nanosPerSec
        = .error .HighExpired :=
  ⟨by decide, by decide, by decide⟩

/-- C3 (amended): with a non-empty deposit, CreateLock fails `LowExpired`
whenever `expire <= now`, fails `HighExpired` whenever the exact duration
`expire - now` is at least `max_lock_time` seconds, and produces neither
time-window error when `now < expire` and the duration the code computes —
`expire` minus `now` truncated to whole seconds, then truncated to seconds —
is strictly below `max_lock_time` (the untruncated bound of the original claim
`expire - now < max_lock_time` is not sufficient, see the
counterexample). -/
theorem create_lock_time_window (s : Storage) (now : Nat) (bal : Balance)
    (sender id : String) (expire : Nat) (hbal : bal.is_empty = false) :
    (expire ≤ now → try_lock s now bal sender id expire = .error .LowExpired)
    ∧ (now < expire → s.state.max_lock_time * nanosPerSec ≤ expire - now →
        try_lock s now bal sender id expire = .error .HighExpired)
    ∧ (now < expire →
        tsSeconds (tsMinusSeconds expire (tsSeconds now)) < s.state.max_lock_time →
        try_lock s now bal sender id expire ≠ .error .LowExpired
          ∧ try_lock s now bal sender id expire ≠ .error .HighExpired) := by
  refine ⟨?_, ?_, ?_⟩
  · intro hle
    unfold try_lock
    rw [hbal]
    simp only [Bool.false_eq_true, if_false, if_pos hle]
  · intro hfut hge
    have hdur : s.state.max_lock_time ≤ tsSeconds (tsMinusSeconds expire (tsSeconds now)) := by
      simp only [tsSeconds, tsMinusSeconds, nanosPerSec] at hge ⊢
      omega
    unfold try_lock
    rw [hbal]
    simp only [Bool.false_eq_true, if_false, if_neg (not_le.mpr hfut), if_pos hdur]
  · intro hfut hdur
    rw [try_lock_of_valid s now bal sender id expire hbal hfut hdur]
    cases hg : Ledger.get s.locks (sender, id) <;> simp [hg]

theorem create_lock_time_window_witness :
    try_lock stInit 0 depositTwo addrAnyone lockId1 0 = .error .LowExpired := by
  exact (create_lock_time_window stInit 0 depositTwo addrAnyone lockId1 0 (by decide)).1
    (by decide)

/-- C4: IncreaseLock never consults `complete`: a completed lock stored at
(sender, id) accepts a further non-empty deposit, the merged funds are
persisted, and every later ReleaseLock on that lock still fails
`LockComplete`, so the added funds have no release path. -/
theorem increase_lock_ignores_completed (s : Storage) (bal : Balance) (sender id : String)
    (l : Lock) (f2 : GenericBalance)
    (hget : Ledger.get s.locks (sender, id) = some l)
    (hdone : l.complete = true)
    (hbal : bal.is_empty = false)
    (hadd : GenericBalance.add_tokens l.funds bal = .ok f2) :
    try_increase_lock s bal sender id =
      .ok ({ s with locks := saveLock s.locks (sender, id) { l with funds := f2 } },
           { messages := [],
             attributes := [("action", "increase_lock"), ("from", sender), ("id", id)] })
    ∧ Ledger.get (saveLock s.locks (sender, id) { l with funds := f2 }) (sender, id)
        = some { l with funds := f2 }
    ∧ ∀ t, try_unlock { s with locks := saveLock s.locks (sender, id) { l with funds := f2 } }
        t sender id = .error .LockComplete := by
  refine ⟨?_, get_saveLock_self _ _ _, ?_⟩
  · simp only [try_increase_lock, hbal, Bool.false_eq_true, if_false, hget, hadd]
  · intro t
    simp only [try_unlock, get_saveLock_self, hdone, if_true]

theorem increase_lock_ignores_completed_witness :
    try_increase_lock stDone depositTwo addrAnyone lockId1 =
      .ok ({ stDone with locks := saveLock stDone.locks (addrAnyone, lockId1) lockDone4 },
           { messages := [],
             attributes := [("action", "increase_lock"), ("from", addrAnyone),
               ("id", lockId1)] }) := by
  exact (increase_lock_ignores_completed stDone depositTwo addrAnyone lockId1 lockDone
    fundsFour (by decide) (by decide) (by decide) (by decide)).1

/-- C6: a successful ReleaseLock persists the lock with `complete = true`
and its funds untouched, and the message sequence of the response is exactly: at
most one native transfer to the caller — omitted iff the stored native
coin list is empty — followed by one cw20 transfer per stored token entry,
in the stored order, each directed to the caller. -/
theorem release_success_sets_complete_and_messages (s : Storage) (now : Nat)
    (sender id : String) (s2 : Storage) (r : Response)
    (h : try_unlock s now sender id = .ok (s2, r)) :
    ∃ l, Ledger.get s.locks (sender, id) = some l
      ∧ Ledger.get s2.locks (sender, id) = some { l with complete := true }
      ∧ r.messages =
          (if l.funds.native.isEmpty then []
            else [CosmosMsg.bankSend sender l.funds.native])
          ++ l.funds.cw20.map (fun c => CosmosMsg.cw20Transfer c.address sender c.amount) := by
  obtain ⟨l, hget, hc, hlt, hs2, hr⟩ := try_unlock_ok_inv s now sender id s2 r h
  subst hs2
  subst hr
  exact ⟨l, hget, get_saveLock_self _ _ _, rfl⟩

theorem release_success_sets_complete_and_messages_witness :
    ∃ l, Ledger.get stWith1.locks (addrAnyone, lockId1) = some l
      ∧ Ledger.get stDone.locks (addrAnyone, lockId1) = some { l with complete := true }
      ∧ rUnlock.messages =
          (if l.funds.native.isEmpty then []
            else [CosmosMsg.bankSend addrAnyone l.funds.native])
          ++ l.funds.cw20.map
              (fun c => CosmosMsg.cw20Transfer c.address addrAnyone c.amount) := by
  exact release_success_sets_complete_and_messages stWith1 (201 * nanosPerSec) addrAnyone
    lockId1 stDone rUnlock (by decide)

/-- C7: a call that returns an error commits nothing — under the
all-or-nothing transaction boundary of the host, the storage after a failed
call is exactly the storage before it. -/
theorem failed_call_commits_nothing (s : Storage) (c : Call) (e : ContractError)
    (h : execute s c = .error e) : applyCall s c = s := by
  unfold applyCall
  rw [h]

theorem failed_call_commits_nothing_witness :
    applyCall stInit (.unlockCall 0 addrAnyone lockId1) = stInit := by
  exact failed_call_commits_nothing stInit (.unlockCall 0 addrAnyone lockId1) .NotFound
    (by decide)

/-- C10: the `HighExpired` check compares whole seconds only — it subtracts
the whole-second component of `now` from `expire` and truncates to seconds — so
whenever `now` has a nonzero sub-second component (and the configured bound
is positive) there is an expiry whose exact duration is strictly below the
bound yet is rejected `HighExpired`; the `LowExpired` check, by contrast,
compares full nanosecond timestamps: any `expire` strictly above `now`
passes it. -/
theorem duration_check_truncates_seconds (s : Storage) (bal : Balance) (sender id : String)
    (now : Nat) (hbal : bal.is_empty = false) (hM : 1 ≤ s.state.max_lock_time)
    (hsub : now % nanosPerSec ≠ 0) :
    (∃ expire, now < expire
       ∧ expire - now < s.state.max_lock_time * nanosPerSec
       ∧ try_lock s now bal sender id expire = .error .HighExpired)
    ∧ ∀ expire, now < expire →
        try_lock s now bal sender id expire ≠ .error .LowExpired := by
  constructor
  · refine ⟨now / nanosPerSec * nanosPerSec + s.state.max_lock_time * nanosPerSec, ?_⟩
    have hfut : now < now / nanosPerSec * nanosPerSec
        + s.state.max_lock_time * nanosPerSec := by
      simp only [nanosPerSec] at hsub ⊢
      omega
    have hdiff : tsSeconds (tsMinusSeconds
        (now / nanosPerSec * nanosPerSec + s.state.max_lock_time * nanosPerSec)
        (tsSeconds now)) = s.state.max_lock_time := by
      simp only [tsSeconds, tsMinusSeconds, nanosPerSec]
      omega
    refine ⟨hfut, ?_, ?_⟩
    · simp only [nanosPerSec] at hsub ⊢
      omega
    · unfold try_lock
      rw [hbal]
      simp only [Bool.false_eq_true, if_false, if_neg (not_le.mpr hfut), hdiff,
        if_pos (le_refl s.state.max_lock_time)]
  · intro expire hfut
    unfold try_lock
    rw [hbal]
    simp only [Bool.false_eq_true, if_false, if_neg (not_le.mpr hfut)]
    split
    · simp
    · split <;> simp

/-! ### Ledger ordering and enumeration (C9) -/

theorem keyLt_trans {a b c : Key} (h1 : keyLt a b) (h2 : keyLt b c) : keyLt a c := by
  unfold keyLt at *
  rcases h1 with h1 | ⟨e1, l1⟩ <;> rcases h2 with h2 | ⟨e2, l2⟩
  · exact Or.inl (lt_trans h1 h2)
  · exact Or.inl (by rw [← e2]; exact h1)
  · exact Or.inl (by rw [e1]; exact h2)
  · exact Or.inr ⟨by rw [e1, e2], lt_trans l1 l2⟩

theorem keyLt_total_of_ne {a b : Key} (hne : a ≠ b) (h : ¬ keyLt a b) : keyLt b a := by
  unfold keyLt at *
  push_neg at h
  obtain ⟨h1, h2⟩ := h
  rcases lt_trichotomy a.1 b.1 with hlt | heq | hgt
  · exact absurd hlt h1
  · rcases lt_trichotomy a.2 b.2 with hlt2 | heq2 | hgt2
    · exact absurd hlt2 (h2 heq)
    · exact absurd (Prod.ext heq heq2) hne
    · exact Or.inr ⟨heq.symm, hgt2⟩
  · exact Or.inl hgt

theorem get_none_forall (l : Ledger) (k : Key) (h : Ledger.get l k = none) :
    ∀ e ∈ l, e.1 ≠ k := by
  induction l with
  | nil =>
    intro e he
    cases he
  | cons e0 rest ih =>
    obtain ⟨k1, w⟩ := e0
    simp only [Ledger.get] at h
    by_cases hk : k1 = k
    · rw [if_pos hk] at h; cases h
    · rw [if_neg hk] at h
      intro e he
      rcases List.mem_cons.mp he with rfl | he2
      · exact hk
      · exact ih h e he2

theorem mem_insertLock {l : Ledger} {k : Key} {v : Lock} {x : Key × Lock}
    (h : x ∈ insertLock l k v) : x = (k, v) ∨ x ∈ l := by
  induction l with
  | nil =>
    simp only [insertLock] at h
    rcases List.mem_cons.mp h with rfl | h2
    · exact Or.inl rfl
    · cases h2
  | cons e rest ih =>
    obtain ⟨k1, w⟩ := e
    simp only [insertLock] at h
    split at h
    · rcases List.mem_cons.mp h with rfl | h2
      · exact Or.inl rfl
      · exact Or.inr h2
    · rcases List.mem_cons.mp h with rfl | h2
      · exact Or.inr (List.mem_cons_self _ _)
      · rcases ih h2 with h3 | h3
        · exact Or.inl h3
        · exact Or.inr (List.mem_cons_of_mem _ h3)

theorem insertLock_sorted {l : Ledger} {k : Key} {v : Lock}
    (hs : LedgerSorted l) (habs : Ledger.get l k = none) :
    LedgerSorted (insertLock l k v) := by
  induction l with
  | nil => simp [insertLock, LedgerSorted]
  | cons e rest ih =>
    obtain ⟨k1, w⟩ := e
    have hne : k1 ≠ k := get_none_forall _ _ habs (k1, w) (List.mem_cons_self _ _)
    simp only [Ledger.get, if_neg hne] at habs
    obtain ⟨hall, hrest⟩ := List.pairwise_cons.mp hs
    simp only [insertLock]
    by_cases hlt : keyLt k k1
    · rw [if_pos hlt]
      refine List.pairwise_cons.mpr ⟨?_, hs⟩
      intro y hy
      rcases List.mem_cons.mp hy with rfl | hy2
      · exact hlt
      · exact keyLt_trans hlt (hall y hy2)
    · rw [if_neg hlt]
      refine List.pairwise_cons.mpr ⟨?_, ih hrest habs⟩
      intro y hy
      rcases mem_insertLock hy with rfl | hy2
      · exact keyLt_total_of_ne (Ne.symm hne) hlt
      · exact hall y hy2

theorem saveLock_keys {l : Ledger} {k : Key} {v : Lock}
    (h : ∃ w, Ledger.get l k = some w) :
    (saveLock l k v).map Prod.fst = l.map Prod.fst := by
  induction l with
  | nil =>
    obtain ⟨w, hw⟩ := h
    cases hw
  | cons e rest ih =>
    obtain ⟨k1, w1⟩ := e
    obtain ⟨w, hw⟩ := h
    simp only [Ledger.get] at hw
    simp only [saveLock]
    by_cases hk : k1 = k
    · rw [if_pos hk]
      simp [hk]
    · rw [if_neg hk] at hw
      rw [if_neg hk]
      simp only [List.map_cons]
      rw [ih ⟨w, hw⟩]

theorem ledgerSorted_iff_keys (l : Ledger) :
    LedgerSorted l ↔ (l.map Prod.fst).Pairwise keyLt := by
  unfold LedgerSorted
  rw [List.pairwise_map]

theorem saveLock_sorted {l : Ledger} {k : Key} {v w : Lock}
    (hs : LedgerSorted l) (hget : Ledger.get l k = some w) :
    LedgerSorted (saveLock l k v) := by
  rw [ledgerSorted_iff_keys] at hs ⊢
  rw [saveLock_keys ⟨w, hget⟩]
  exact hs

theorem sorted_applyCall (s : Storage) (c : Call) (h : LedgerSorted s.locks) :
    LedgerSorted (applyCall s c).locks := by
  cases hex : execute s c with
  | error e =>
    have happ : applyCall s c = s := by unfold applyCall; rw [hex]
    rw [happ]
    exact h
  | ok p =>
    obtain ⟨s2, r⟩ := p
    have happ : applyCall s c = s2 := by unfold applyCall; rw [hex]
    rw [happ]
    cases c with
    | lockCall now sender funds id expire =>
      simp only [execute] at hex
      obtain ⟨hnone, hs2⟩ := try_lock_ok_inv s now funds sender id expire s2 r hex
      rw [hs2]
      exact insertLock_sorted h hnone
    | increaseCall sender funds id =>
      simp only [execute] at hex
      obtain ⟨lock, f2, hget, _, hs2⟩ := try_increase_ok_inv s funds sender id s2 r hex
      rw [hs2]
      exact saveLock_sorted h hget
    | unlockCall now sender id =>
      simp only [execute] at hex
      obtain ⟨lock, hget, _, _, hs2, _⟩ := try_unlock_ok_inv s now sender id s2 r hex
      rw [hs2]
      exact saveLock_sorted h hget

theorem sorted_execTrace : ∀ (trace : List Call) (s : Storage),
    LedgerSorted s.locks → LedgerSorted (execTrace s trace).locks := by
  intro trace
  induction trace with
  | nil =>
    intro s h
    exact h
  | cons c cs ih =>
    intro s h
    simp only [execTrace]
    exact ih (applyCall s c) (sorted_applyCall s c h)

theorem query_locks_sorted_ids (s : Storage) (owner : String) (h : LedgerSorted s.locks) :
    ((query_locks s owner).map LockInfo.id).Pairwise (fun a b => a < b) := by
  unfold query_locks
  rw [List.map_map]
  have hmap : (LockInfo.id ∘ fun kv : Key × Lock => to_lock_info kv.2 kv.1.2)
      = fun kv : Key × Lock => kv.1.2 := rfl
  rw [hmap, List.pairwise_map]
  have hfil : List.Pairwise (fun a b : Key × Lock => keyLt a.1 b.1)
      (s.locks.filter (fun kv => kv.1.1 == owner)) :=
    List.Pairwise.filter _ h
  refine hfil.imp_of_mem ?_
  intro a b ha hb hab
  have ha2 : a.1.1 = owner := eq_of_beq (List.mem_filter.mp ha).2
  have hb2 : b.1.1 = owner := eq_of_beq (List.mem_filter.mp hb).2
  rcases hab with hlt | ⟨heq, hlt2⟩
  · rw [ha2, hb2] at hlt
    exact absurd hlt (lt_irrefl _)
  · exact hlt2

theorem insertLock_perm (l : Ledger) (k : Key) (v : Lock) :
    List.Perm (insertLock l k v) ((k, v) :: l) := by
  induction l with
  | nil => exact List.Perm.refl _
  | cons e rest ih =>
    obtain ⟨k1, w⟩ := e
    simp only [insertLock]
    by_cases hlt : keyLt k k1
    · rw [if_pos hlt]
    · rw [if_neg hlt]
      exact (List.Perm.cons _ ih).trans (List.Perm.swap _ _ _)

theorem length_filter_insertLock (l : Ledger) (k : Key) (v : Lock)
    (p : Key × Lock → Bool) :
    ((insertLock l k v).filter p).length = (((k, v) :: l).filter p).length :=
  ((insertLock_perm l k v).filter p).length_eq

theorem length_filter_saveLock (l : Ledger) (k : Key) (v w : Lock)
    (hget : Ledger.get l k = some w) (p : Key × Lock → Bool)
    (hp : p (k, v) = p (k, w)) :
    ((saveLock l k v).filter p).length = (l.filter p).length := by
  induction l with
  | nil => cases hget
  | cons e rest ih =>
    obtain ⟨k1, w1⟩ := e
    simp only [Ledger.get] at hget
    simp only [saveLock]
    by_cases hk : k1 = k
    · rw [if_pos hk] at hget
      injection hget with hww
      subst hww
      subst hk
      rw [if_pos rfl]
      simp only [List.filter_cons, hp]
      cases hpv : p (k1, w1) <;> simp [hpv]
    · rw [if_neg hk] at hget
      rw [if_neg hk]
      simp only [List.filter_cons]
      cases hpe : p (k1, w1) <;> simp [ih hget]

theorem query_length_applyCall (s : Storage) (c : Call) (owner : String) :
    (query_locks (applyCall s c) owner).length
      = (query_locks s owner).length
        + (if isSuccessfulCreate s c owner then 1 else 0) := by
  cases c with
  | lockCall now sender funds id expire =>
    cases hex : try_lock s now funds sender id expire with
    | error e =>
      have happ : applyCall s (.lockCall now sender funds id expire) = s := by
        simp only [applyCall, execute, hex]
      have hsc : isSuccessfulCreate s (.lockCall now sender funds id expire) owner
          = false := by
        simp [isSuccessfulCreate, hex]
      rw [happ, hsc]
      simp
    | ok p =>
      obtain ⟨s2, r⟩ := p
      have happ : applyCall s (.lockCall now sender funds id expire) = s2 := by
        simp only [applyCall, execute, hex]
      obtain ⟨hnone, hs2⟩ := try_lock_ok_inv s now funds sender id expire s2 r hex
      have hsc : isSuccessfulCreate s (.lockCall now sender funds id expire) owner
          = (sender == owner) := by
        simp [isSuccessfulCreate, hex]
      rw [happ, hs2, hsc]
      unfold query_locks
      simp only [List.length_map]
      rw [length_filter_insertLock]
      simp only [List.filter_cons]
      cases hso : (sender == owner) <;> simp
  | increaseCall sender funds id =>
    have hsc : isSuccessfulCreate s (.increaseCall sender funds id) owner = false := rfl
    rw [hsc]
    cases hex : try_increase_lock s funds sender id with
    | error e =>
      have happ : applyCall s (.increaseCall sender funds id) = s := by
        simp only [applyCall, execute, hex]
      rw [happ]
      simp
    | ok p =>
      obtain ⟨s2, r⟩ := p
      have happ : applyCall s (.increaseCall sender funds id) = s2 := by
        simp only [applyCall, execute, hex]
      obtain ⟨lock, f2, hget, hadd, hs2⟩ := try_increase_ok_inv s funds sender id s2 r hex
      rw [happ, hs2]
      unfold query_locks
      simp only [List.length_map]
      rw [length_filter_saveLock s.locks (sender, id) { lock with funds := f2 } lock hget
        (fun kv => kv.1.1 == owner) rfl]
      simp
  | unlockCall now sender id =>
    have hsc : isSuccessfulCreate s (.unlockCall now sender id) owner = false := rfl
    rw [hsc]
    cases hex : try_unlock s now sender id with
    | error e =>
      have happ : applyCall s (.unlockCall now sender id) = s := by
        simp only [applyCall, execute, hex]
      rw [happ]
      simp
    | ok p =>
      obtain ⟨s2, r⟩ := p
      have happ : applyCall s (.unlockCall now sender id) = s2 := by
        simp only [applyCall, execute, hex]
      obtain ⟨lock, hget, _, _, hs2, _⟩ := try_unlock_ok_inv s now sender id s2 r hex
      rw [happ, hs2]
      unfold query_locks
      simp only [List.length_map]
      rw [length_filter_saveLock s.locks (sender, id) { lock with complete := true } lock hget
        (fun kv => kv.1.1 == owner) rfl]
      simp

theorem query_length_execTrace : ∀ (trace : List Call) (s : Storage) (owner : String),
    (query_locks (execTrace s trace) owner).length
      = (query_locks s owner).length + countCreates s trace owner := by
  intro trace
  induction trace with
  | nil =>
    intro s owner
    simp [execTrace, countCreates]
  | cons c cs ih =>
    intro s owner
    simp only [execTrace, countCreates]
    rw [ih (applyCall s c) owner, query_length_applyCall]
    omega

/-- C9: for every call trace from a fresh instantiation and every owner,
QueryAllLocks lists the locks of that owner in strictly ascending id order, its
length equals the number of successful CreateLock calls made for that
owner along the trace, and an owner with no successful creates gets the
empty sequence (the query itself is a pure function of the storage). -/
theorem query_all_locks_enumeration (m : Nat) (creator : String) (trace : List Call)
    (owner : String) :
    ((query_locks (execTrace (instantiate m creator) trace) owner).map
        LockInfo.id).Pairwise (fun a b => a < b)
    ∧ (query_locks (execTrace (instantiate m creator) trace) owner).length
        = countCreates (instantiate m creator) trace owner
    ∧ (countCreates (instantiate m creator) trace owner = 0 →
        query_locks (execTrace (instantiate m creator) trace) owner = []) := by
  have hsorted : LedgerSorted (execTrace (instantiate m creator) trace).locks :=
    sorted_execTrace trace (instantiate m creator) (by simp [instantiate, LedgerSorted])
  have hlen : (query_locks (execTrace (instantiate m creator) trace) owner).length
      = countCreates (instantiate m creator) trace owner := by
    rw [query_length_execTrace]
    simp [query_locks, instantiate]
  refine ⟨query_locks_sorted_ids _ _ hsorted, hlen, ?_⟩
  intro h0
  exact List.length_eq_zero.mp (hlen.trans h0)

theorem query_all_locks_enumeration_witness :
    ((query_locks (execTrace (instantiate 3600 addrCreator) traceEx) addrAnyone).map
        LockInfo.id).Pairwise (fun a b => a < b)
    ∧ (query_locks (execTrace (instantiate 3600 addrCreator) traceEx) addrAnyone).length
        = countCreates (instantiate 3600 addrCreator) traceEx addrAnyone
    ∧ (countCreates (instantiate 3600 addrCreator) traceEx addrAnyone = 0 →
        query_locks (execTrace (instantiate 3600 addrCreator) traceEx) addrAnyone = []) :=
  query_all_locks_enumeration 3600 addrCreator traceEx addrAnyone

/-! ### Checked balance arithmetic (C8) -/

theorem addCw20Token_spec (cw : List Cw20CoinVerified) (t : Cw20CoinVerified)
    (hb : t.amount ≤ uint128Max) :
    (uint128Max < tokenAmount cw t.address + t.amount →
       addCw20Token cw t = .error .Overflow)
    ∧ (tokenAmount cw t.address + t.amount ≤ uint128Max →
       ∃ c2, addCw20Token cw t = .ok c2
         ∧ tokenAmount c2 t.address = tokenAmount cw t.address + t.amount
         ∧ ∀ a, a ≠ t.address → tokenAmount c2 a = tokenAmount cw a) := by
  induction cw with
  | nil =>
    refine ⟨?_, ?_⟩
    · intro hov
      simp only [tokenAmount] at hov
      omega
    · intro _
      refine ⟨[t], rfl, by simp [tokenAmount], ?_⟩
      intro a ha
      simp [tokenAmount, if_neg (Ne.symm ha)]
  | cons e rest ih =>
    by_cases hea : e.address = t.address
    · refine ⟨?_, ?_⟩
      · intro hov
        simp only [tokenAmount, if_pos hea] at hov
        simp only [addCw20Token, if_pos hea, if_neg (not_le.mpr hov)]
      · intro hle
        simp only [tokenAmount, if_pos hea] at hle
        refine ⟨{ address := e.address, amount := e.amount + t.amount } :: rest, ?_, ?_, ?_⟩
        · simp only [addCw20Token, if_pos hea, if_pos hle]
        · simp only [tokenAmount, if_pos hea]
        · intro a ha
          have hne : e.address ≠ a := by rw [hea]; exact Ne.symm ha
          simp only [tokenAmount, if_neg hne]
    · obtain ⟨ih1, ih2⟩ := ih
      have hta : tokenAmount (e :: rest) t.address = tokenAmount rest t.address := by
        simp only [tokenAmount, if_neg hea]
      refine ⟨?_, ?_⟩
      · intro hov
        rw [hta] at hov
        simp only [addCw20Token, if_neg hea, ih1 hov]
      · intro hle
        rw [hta] at hle
        obtain ⟨c2, hok, hupd, hoth⟩ := ih2 hle
        refine ⟨e :: c2, ?_, ?_, ?_⟩
        · simp only [addCw20Token, if_neg hea, hok]
        · simp only [tokenAmount, if_neg hea, hupd]
        · intro a ha
          by_cases heaa : e.address = a
          · simp only [tokenAmount, if_pos heaa]
          · simp only [tokenAmount, if_neg heaa, hoth a ha]

theorem addNativeCoin_spec (native : List Coin) (c : Coin)
    (hb : c.amount ≤ uint128Max) :
    (uint128Max < denomAmount native c.denom + c.amount →
       addNativeCoin native c = .error .Overflow)
    ∧ (denomAmount native c.denom + c.amount ≤ uint128Max →
       ∃ n2, addNativeCoin native c = .ok n2
         ∧ denomAmount n2 c.denom = denomAmount native c.denom + c.amount
         ∧ ∀ d, d ≠ c.denom → denomAmount n2 d = denomAmount native d) := by
  induction native with
  | nil =>
    refine ⟨?_, ?_⟩
    · intro hov
      simp only [denomAmount] at hov
      omega
    · intro _
      refine ⟨[c], rfl, by simp [denomAmount], ?_⟩
      intro d hd
      simp [denomAmount, if_neg (Ne.symm hd)]
  | cons e rest ih =>
    by_cases hed : e.denom = c.denom
    · refine ⟨?_, ?_⟩
      · intro hov
        simp only [denomAmount, if_pos hed] at hov
        simp only [addNativeCoin, if_pos hed, if_neg (not_le.mpr hov)]
      · intro hle
        simp only [denomAmount, if_pos hed] at hle
        refine ⟨{ denom := e.denom, amount := e.amount + c.amount } :: rest, ?_, ?_, ?_⟩
        · simp only [addNativeCoin, if_pos hed, if_pos hle]
        · simp only [denomAmount, if_pos hed]
        · intro d hd
          have hne : e.denom ≠ d := by rw [hed]; exact Ne.symm hd
          simp only [denomAmount, if_neg hne]
    · obtain ⟨ih1, ih2⟩ := ih
      have hda : denomAmount (e :: rest) c.denom = denomAmount rest c.denom := by
        simp only [denomAmount, if_neg hed]
      refine ⟨?_, ?_⟩
      · intro hov
        rw [hda] at hov
        simp only [addNativeCoin, if_neg hed, ih1 hov]
      · intro hle
        rw [hda] at hle
        obtain ⟨n2, hok, hupd, hoth⟩ := ih2 hle
        refine ⟨e :: n2, ?_, ?_, ?_⟩
        · simp only [addNativeCoin, if_neg hed, hok]
        · simp only [denomAmount, if_neg hed, hupd]
        · intro d hd
          by_cases hedd : e.denom = d
          · simp only [denomAmount, if_pos hedd]
          · simp only [denomAmount, if_neg hedd, hoth d hd]

theorem addNativeCoins_spec : ∀ (cs : List Coin) (native : List Coin),
    cs.Pairwise (fun a b => a.denom ≠ b.denom) →
    (∀ c ∈ cs, c.amount ≤ uint128Max) →
    ((∃ c ∈ cs, uint128Max < denomAmount native c.denom + c.amount) →
       addNativeCoins native cs = .error .Overflow)
    ∧ ((∀ c ∈ cs, denomAmount native c.denom + c.amount ≤ uint128Max) →
       ∃ n2, addNativeCoins native cs = .ok n2
         ∧ (∀ c ∈ cs, denomAmount n2 c.denom = denomAmount native c.denom + c.amount)
         ∧ (∀ d, (∀ c ∈ cs, c.denom ≠ d) → denomAmount n2 d = denomAmount native d)) := by
  intro cs
  induction cs with
  | nil =>
    intro native hpw hb
    refine ⟨?_, ?_⟩
    · rintro ⟨c, hc, _⟩
      cases hc
    · intro _
      exact ⟨native, rfl, by simp, fun d _ => rfl⟩
  | cons c0 cs ih =>
    intro native hpw hb
    have hpw0 : ∀ b ∈ cs, c0.denom ≠ b.denom := (List.pairwise_cons.mp hpw).1
    have hpwr := (List.pairwise_cons.mp hpw).2
    have hb0 : c0.amount ≤ uint128Max := hb c0 (List.mem_cons_self _ _)
    have hbr : ∀ c ∈ cs, c.amount ≤ uint128Max :=
      fun c hc => hb c (List.mem_cons_of_mem _ hc)
    obtain ⟨h1, h2⟩ := addNativeCoin_spec native c0 hb0
    refine ⟨?_, ?_⟩
    · rintro ⟨c, hc, hov⟩
      rcases List.mem_cons.mp hc with rfl | hc2
      · simp only [addNativeCoins, h1 hov]
      · by_cases hov0 : uint128Max < denomAmount native c0.denom + c0.amount
        · simp only [addNativeCoins, h1 hov0]
        · push_neg at hov0
          obtain ⟨n1, hok1, hupd1, hoth1⟩ := h2 hov0
          have hkeep : denomAmount n1 c.denom = denomAmount native c.denom :=
            hoth1 c.denom (Ne.symm (hpw0 c hc2))
          have herr := (ih n1 hpwr hbr).1 ⟨c, hc2, by rw [hkeep]; exact hov⟩
          simp only [addNativeCoins, hok1, herr]
    · intro hall
      have hle0 : denomAmount native c0.denom + c0.amount ≤ uint128Max :=
        hall c0 (List.mem_cons_self _ _)
      obtain ⟨n1, hok1, hupd1, hoth1⟩ := h2 hle0
      have haller : ∀ c ∈ cs, denomAmount n1 c.denom + c.amount ≤ uint128Max := by
        intro c hc
        rw [hoth1 c.denom (Ne.symm (hpw0 c hc))]
        exact hall c (List.mem_cons_of_mem _ hc)
      obtain ⟨n2, hok2, hupd2, hoth2⟩ := (ih n1 hpwr hbr).2 haller
      refine ⟨n2, ?_, ?_, ?_⟩
      · simp only [addNativeCoins, hok1, hok2]
      · intro c hc
        rcases List.mem_cons.mp hc with rfl | hc2
        · have hkeep : denomAmount n2 c.denom = denomAmount n1 c.denom :=
            hoth2 c.denom (fun x hx => Ne.symm (hpw0 x hx))
          rw [hkeep, hupd1]
        · rw [hupd2 c hc2, hoth1 c.denom (Ne.symm (hpw0 c hc2))]
      · intro d hd
        have hd0 : d ≠ c0.denom := Ne.symm (hd c0 (List.mem_cons_self _ _))
        have hdr : ∀ x ∈ cs, x.denom ≠ d := fun x hx => hd x (List.mem_cons_of_mem _ hx)
        rw [hoth2 d hdr, hoth1 d hd0]

/-- C8: merging a deposit into held funds checks every addition: whenever
the (first-matching-entry) sum for the deposited token, or for any coin of
a canonical native deposit, leaves the `Uint128` range, `add_tokens` fails
with `Overflow`; otherwise it succeeds and the stored amounts are the exact
sums, all other entries unchanged. -/
theorem add_tokens_overflow_checked (g : GenericBalance) :
    (∀ t : Cw20CoinVerified, t.amount ≤ uint128Max →
       (uint128Max < tokenAmount g.cw20 t.address + t.amount →
          g.add_tokens (.cw20 t) = .error .Overflow)
       ∧ (tokenAmount g.cw20 t.address + t.amount ≤ uint128Max →
          ∃ g2, g.add_tokens (.cw20 t) = .ok g2
            ∧ tokenAmount g2.cw20 t.address = tokenAmount g.cw20 t.address + t.amount
            ∧ (∀ a, a ≠ t.address → tokenAmount g2.cw20 a = tokenAmount g.cw20 a)
            ∧ g2.native = g.native))
    ∧ (∀ cs : List Coin, cs.Pairwise (fun a b => a.denom ≠ b.denom) →
       (∀ c ∈ cs, c.amount ≤ uint128Max) →
       ((∃ c ∈ cs, uint128Max < denomAmount g.native c.denom + c.amount) →
          g.add_tokens (.native cs) = .error .Overflow)
       ∧ ((∀ c ∈ cs, denomAmount g.native c.denom + c.amount ≤ uint128Max) →
          ∃ g2, g.add_tokens (.native cs) = .ok g2
            ∧ (∀ c ∈ cs, denomAmount g2.native c.denom
                = denomAmount g.native c.denom + c.amount)
            ∧ (∀ d, (∀ c ∈ cs, c.denom ≠ d) →
                denomAmount g2.native d = denomAmount g.native d)
            ∧ g2.cw20 = g.cw20)) := by
  constructor
  · intro t hb
    obtain ⟨h1, h2⟩ := addCw20Token_spec g.cw20 t hb
    constructor
    · intro hov
      simp only [GenericBalance.add_tokens, h1 hov]
    · intro hle
      obtain ⟨c2, hok, hupd, hoth⟩ := h2 hle
      exact ⟨{ g with cw20 := c2 },
        by simp only [GenericBalance.add_tokens, hok], hupd, hoth, rfl⟩
  · intro cs hpw hb
    obtain ⟨h1, h2⟩ := addNativeCoins_spec cs g.native hpw hb
    constructor
    · intro hov
      simp only [GenericBalance.add_tokens, h1 hov]
    · intro hle
      obtain ⟨n2, hok, hupd, hoth⟩ := h2 hle
      exact ⟨{ g with native := n2 },
        by simp only [GenericBalance.add_tokens, hok], hupd, hoth, rfl⟩

theorem add_tokens_overflow_checked_witness :
    GenericBalance.add_tokens gMax (.native [{ denom := denomToken, amount := 1 }])
      = .error .Overflow := by
  have h := (add_tokens_overflow_checked gMax).2 [{ denom := denomToken, amount := 1 }]
    (by simp) (by decide)
  exact h.1 (by decide)

theorem duration_check_truncates_seconds_witness :
    (∃ expire, 1 < expire
       ∧ expire - 1 < (instantiate 1 addrCreator).state.max_lock_time * nanosPerSec
       ∧ try_lock (instantiate 1 addrCreator) 1 depositTwo addrAnyone lockId1 expire
           = .error .HighExpired)
    ∧ ∀ expire, 1 < expire →
        try_lock (instantiate 1 addrCreator) 1 depositTwo addrAnyone lockId1 expire
          ≠ .error .LowExpired := by
  exact duration_check_truncates_seconds (instantiate 1 addrCreator) depositTwo addrAnyone
    lockId1 1 (by decide) (by decide) (by decide)

end Lockbox
